import Mathlib

/-!
Libpfs channels: channel map, channel iterator, channel storage

A shallow embedding of `src/Libpfs/channel.h`.

* `std::string` is a finite sequence of bytes, each byte an unsigned value below 256.
* `ChannelImpl*` is an address; the null pointer is the address `0`.
* `std::map<std::string, ChannelImpl*, string_cmp>` is held as the sequence of its
  entries in iteration order (`begin()` to `end()`); an iterator of the map is a
  position in that sequence, `end()` being the position one past the last entry.
* A method that changes its object returns the new object next to its result.
-/

namespace pfs

/-! ## Strings and the key comparator -/

/-- A `std::string`: its bytes, each taken as an `unsigned char`. -/
abbrev CppString := List (Fin 256)

/-- Library `std::char_traits<char>::compare(p, q, n)`: the first of the leading `n` positions
where the two byte sequences differ decides; negative when the byte of `p` is the
smaller one, positive when it is the larger one, zero when there is no such position. -/
def traits_compare : List (Fin 256) → List (Fin 256) → Nat → Int
  | a :: p, b :: q, n + 1 =>
    if a < b then -1 else if b < a then 1 else traits_compare p q n
  | _, _, _ => 0

/-- Library `std::string::compare(const std::string&)`: compares the common leading part with
`traits_compare`; when that part is equal the sizes decide. -/
def CppString.compare (s1 s2 : CppString) : Int :=
  let rlen := min s1.length s2.length
  let r := traits_compare s1 s2 rlen
  if r ≠ 0 then r else (s1.length : Int) - (s2.length : Int)

/-- The comparator `string_cmp::operator()`: `s1.compare(s2) < 0`. -/
def string_cmp (s1 s2 : CppString) : Bool :=
  decide (CppString.compare s1 s2 < 0)

/-- Lexicographic "strictly less" on byte strings, as the specification words it:
bytes are compared as unsigned values, the first differing byte decides, and a proper
prefix is less than the longer string. -/
def lexLess : CppString → CppString → Bool
  | [], [] => false
  | [], _ :: _ => true
  | _ :: _, [] => false
  | a :: s, b :: t => decide (a < b) || (decide (a = b) && lexLess s t)

/-! ## The channel map -/

/-- A `ChannelImpl*`: an address. -/
abbrev ChannelPtr := Nat

/-- The null pointer. -/
def NULL : ChannelPtr := 0

/-- The type `ChannelMap`, a `std::map<std::string, ChannelImpl*, string_cmp>`: its entries
`(first, second)` in iteration order. -/
abbrev ChannelMap := List (CppString × ChannelPtr)

namespace ChannelMap

/-- Library `std::map::size()`: the number of entries. -/
def size (cm : ChannelMap) : Nat := cm.length

/-- The keys of the map in iteration order. -/
def keys (cm : ChannelMap) : List CppString := cm.map Prod.fst

/-- Key equivalence of an ordered map: neither key is ordered before the other
by the comparator. -/
def equiv (a b : CppString) : Bool := !string_cmp a b && !string_cmp b a

/-- Library `std::map::begin()`: the position of the first entry. -/
def begin (cm : ChannelMap) : Fin (cm.size + 1) := ⟨0, Nat.succ_pos _⟩

/-- Library `std::map::end()`: the position one past the last entry. -/
def end_ (cm : ChannelMap) : Fin (cm.size + 1) := ⟨cm.size, Nat.lt_succ_self _⟩

/-- Library `std::map::insert(std::pair(k, v))`: the entry is placed before the first entry
whose key is ordered after `k`; when an entry with an equivalent key is present the
map is left as it is. -/
def insert : ChannelMap → CppString → ChannelPtr → ChannelMap
  | [], k, v => [(k, v)]
  | (k', v') :: rest, k, v =>
    if string_cmp k k' then (k, v) :: (k', v') :: rest
    else if string_cmp k' k then (k', v') :: insert rest k v
    else (k', v') :: rest

/-- An assignment `cm[k] = v` through `std::map::operator[]`: the entry with an
equivalent key gets the new value, and when there is none a new entry is placed as
by `insert`. -/
def assign : ChannelMap → CppString → ChannelPtr → ChannelMap
  | [], k, v => [(k, v)]
  | (k', v') :: rest, k, v =>
    if string_cmp k k' then (k, v) :: (k', v') :: rest
    else if string_cmp k' k then (k', v') :: assign rest k v
    else (k', v) :: rest

/-- Library `std::map::erase(k)`: removes the entry whose key is equivalent to `k`, if any. -/
def erase : ChannelMap → CppString → ChannelMap
  | [], _ => []
  | (k', v') :: rest, k =>
    if equiv k' k then rest else (k', v') :: erase rest k

/-- Library `std::map::find(k)`: the position of the entry whose key is equivalent to `k`,
or `end()` when there is none. -/
def find (cm : ChannelMap) (k : CppString) : Fin (cm.size + 1) :=
  ⟨cm.findIdx (fun e => equiv e.1 k), Nat.lt_succ_of_le (List.findIdx_le_length _)⟩

end ChannelMap

/-- One structural operation on a channel map. -/
inductive MapOp where
  | insert (k : CppString) (v : ChannelPtr)
  | assign (k : CppString) (v : ChannelPtr)
  | erase (k : CppString)
  deriving DecidableEq, Repr

/-- The map after one operation. -/
def ChannelMap.apply (cm : ChannelMap) : MapOp → ChannelMap
  | .insert k v => cm.insert k v
  | .assign k v => cm.assign k v
  | .erase k => cm.erase k

/-- The map reached from the empty map by a sequence of operations, first to last. -/
def ChannelMap.run (ops : List MapOp) : ChannelMap :=
  ops.foldl ChannelMap.apply []

/-- The map reached from the empty map by inserting the given entries, first to last. -/
def ChannelMap.insertAll (l : List (CppString × ChannelPtr)) : ChannelMap :=
  l.foldl (fun (cm : ChannelMap) e => ChannelMap.insert cm e.1 e.2) []

/-! ## The channel iterator -/

/-- The class `ChannelIteratorImpl`: the map it is bound to (`cm`) and the map iterator `it`,
a position from `begin()` to `end()` of that map. -/
structure ChannelIteratorImpl where
  cm : ChannelMap
  it : Fin (cm.size + 1)

namespace ChannelIteratorImpl

/-- Method `reset()`: `it = cm->begin()`. -/
def reset (self : ChannelIteratorImpl) : ChannelIteratorImpl :=
  { self with it := self.cm.begin }

/-- The constructor `ChannelIteratorImpl(cm)`: stores `cm`, then calls `reset()`. -/
def new (cm : ChannelMap) : ChannelIteratorImpl :=
  reset ⟨cm, cm.end_⟩

/-- Method `hasNext() const`: `it != cm->end()`. -/
def hasNext (self : ChannelIteratorImpl) : Bool :=
  self.it != self.cm.end_

/-- Method `getNext()`: `NULL` when `hasNext()` is false, otherwise `(it++)->second`.
Returns the result and the iterator after the call. -/
def getNext (self : ChannelIteratorImpl) : ChannelPtr × ChannelIteratorImpl :=
  if h : self.hasNext = false then (NULL, self)
  else
    have hlt : self.it.val < self.cm.size :=
      lt_of_le_of_ne (Nat.le_of_lt_succ self.it.isLt)
        (fun e => h (by simp [hasNext, ChannelMap.end_, Fin.ext_iff, e]))
    ((self.cm.get ⟨self.it.val, hlt⟩).2,
      { self with it := ⟨self.it.val + 1, Nat.succ_lt_succ hlt⟩ })

/-- The results of `n` successive `getNext()` calls, first to last, and the iterator
after them. -/
def drain : Nat → ChannelIteratorImpl → List ChannelPtr × ChannelIteratorImpl
  | 0, s => ([], s)
  | n + 1, s =>
    let r := s.getNext
    let rest := drain n r.2
    (r.1 :: rest.1, rest.2)

end ChannelIteratorImpl

/-- The entries of the map are strictly ascending by key under the comparator. -/
def ChannelMap.Sorted (cm : ChannelMap) : Prop :=
  List.Pairwise (fun a b => string_cmp a.1 b.1 = true) cm

/-- A map is reachable when some sequence of operations leads to it from the
empty map. -/
def ChannelMap.Reachable (cm : ChannelMap) : Prop :=
  ∃ ops : List MapOp, ChannelMap.run ops = cm

/-- The methods of `ChannelIteratorImpl`. -/
inductive Call where
  | reset
  | getNext
  | hasNext
  deriving DecidableEq, Repr

/-- What a method call returns: nothing, a channel pointer, or a `bool`. -/
inductive Ret where
  | void
  | ptr (p : ChannelPtr)
  | bool (b : Bool)
  deriving DecidableEq, Repr

/-- One method call on an iterator: what it returns and the iterator after it.
`hasNext` is a `const` method, so the iterator after it is the iterator before it. -/
def ChannelIteratorImpl.call : Call → ChannelIteratorImpl → Ret × ChannelIteratorImpl
  | .reset, s => (.void, s.reset)
  | .getNext, s => (.ptr s.getNext.1, s.getNext.2)
  | .hasNext, s => (.bool s.hasNext, s)

/-! ## Channel storage -/

/-- A `float` sample, held as its 32-bit pattern; samples are only stored and read. -/
abbrev CFloat := Fin (2 ^ 32)

/-- Modelled from the spec: `Array2DImpl` of `array2d.h`, which is not among the sources
(Dense Plane Storage): the dimensions, fixed at construction, and the buffer of samples
in row-major order. -/
structure Array2DImpl where
  cols : Int
  rows : Int
  data : List CFloat
  deriving DecidableEq, Repr

namespace Array2DImpl

/-- Modelled from the spec: the constructor of `Array2DImpl`, not among the sources:
"allocates a buffer of exactly `width*height` samples, zero- or unspecified-initialized".
`mem` is the content the allocated memory happens to have, by index. -/
def new (cols rows : Int) (mem : Nat → CFloat) : Array2DImpl :=
  { cols := cols, rows := rows, data := (List.range (cols * rows).toNat).map mem }

/-- Modelled from the spec: `getCols()`, not among the sources. -/
def getCols (self : Array2DImpl) : Int := self.cols

/-- Modelled from the spec: `getRows()`, not among the sources. -/
def getRows (self : Array2DImpl) : Int := self.rows

/-- Modelled from the spec: `getRawData()` of the storage, not among the sources: "a raw
linear view of the entire buffer". -/
def getRawData (self : Array2DImpl) : List CFloat := self.data

/-- Modelled from the spec: element access by `(col, row)`, not among the sources: the
slot at index `col + row*cols` of the buffer ("index = x + y*width"); no slot when that
index is outside the buffer. -/
def elem (self : Array2DImpl) (col row : Int) : Option CFloat :=
  if 0 ≤ col + row * self.cols then self.data[(col + row * self.cols).toNat]? else none

end Array2DImpl

/-- Modelled from the spec: `TagContainerImpl` of `tag.h`, which is not among the
sources: the tags as `(key, value)` pairs. -/
abbrev TagContainerImpl := List (CppString × CppString)

/-- The class `ChannelImpl`: the name, the storage and the tags it owns. -/
structure ChannelImpl where
  name : CppString
  channel_impl : Array2DImpl
  tags : TagContainerImpl
  deriving DecidableEq, Repr

namespace ChannelImpl

/-- Modelled from the spec: the constructor `ChannelImpl(width, height, n_name)`, whose
body is not among the sources: the storage and the tag container are "created together
at construction time with the same `width`/`height`", the tags empty. -/
def new (width height : Int) (n_name : CppString) (mem : Nat → CFloat) : ChannelImpl :=
  { name := n_name, channel_impl := Array2DImpl.new width height mem, tags := [] }

/-- Modelled from the spec: `getWidth()`, body not among the sources: "return the
backing storage's dimensions"; a synonym for `Array2D::getCols()`. -/
def getWidth (self : ChannelImpl) : Int := self.channel_impl.getCols

/-- Modelled from the spec: `getHeight()`, body not among the sources; a synonym for
`Array2D::getRows()`. -/
def getHeight (self : ChannelImpl) : Int := self.channel_impl.getRows

/-- Modelled from the spec: `getName()`, body not among the sources: "returns the
immutable name". -/
def getName (self : ChannelImpl) : CppString := self.name

/-- Modelled from the spec: `getRawData()`, body not among the sources: "the linear
row-major buffer view backing this channel". -/
def getRawData (self : ChannelImpl) : List CFloat := self.channel_impl.getRawData

/-- Modelled from the spec: `getChannelData()`, body not among the sources: "the
structured (row/column-addressable) storage view of the same buffer". -/
def getChannelData (self : ChannelImpl) : Array2DImpl := self.channel_impl

end ChannelImpl

/-! ## Worked examples -/

/-- The names `"A"`, `"B"`, `"C"` as byte strings. -/
def nameA : CppString := [65]

/-- The name `"B"`. -/
def nameB : CppString := [66]

/-- The name `"C"`. -/
def nameC : CppString := [67]

/-- Three channels inserted under `"C"`, `"A"`, `"B"`, in that order. -/
def opsCAB : List MapOp := [.insert nameC 30, .insert nameA 10, .insert nameB 20]

/-- The collection holding `"A"`, `"B"`, `"C"`. -/
def mapABC : ChannelMap := [(nameA, 10), (nameB, 20), (nameC, 30)]

/-! ## Facts about the comparator -/

theorem compare_cons_cons (a b : Fin 256) (s t : CppString) :
    CppString.compare (a :: s) (b :: t) =
      if a < b then -1 else if b < a then 1 else CppString.compare s t := by
  unfold CppString.compare
  simp only [List.length_cons, Nat.succ_min_succ, traits_compare]
  by_cases h1 : a < b
  · simp [h1]
  · by_cases h2 : b < a
    · simp [h1, h2]
    · simp only [h1, h2, if_false]
      push_cast
      simp

theorem string_cmp_eq_lexLess (s1 s2 : CppString) : string_cmp s1 s2 = lexLess s1 s2 := by
  induction s1 generalizing s2 with
  | nil =>
    cases s2 with
    | nil => simp [string_cmp, CppString.compare, traits_compare, lexLess]
    | cons b t =>
      simp [string_cmp, CppString.compare, traits_compare, lexLess]
      omega
  | cons a s ih =>
    cases s2 with
    | nil =>
      simp [string_cmp, CppString.compare, traits_compare, lexLess]
      omega
    | cons b t =>
      have ih' := ih t
      unfold string_cmp at ih' ⊢
      rw [compare_cons_cons, lexLess, ← ih']
      by_cases h1 : a < b
      · simp [h1]
      · by_cases h2 : b < a
        · have : a ≠ b := fun e => h1 (e ▸ h2)
          simp [h1, h2, this]
        · have : a = b := le_antisymm (not_lt.mp h2) (not_lt.mp h1)
          simp [h1, this]

theorem lexLess_iff_lex (s1 s2 : CppString) :
    lexLess s1 s2 = true ↔ List.Lex (· < ·) s1 s2 := by
  induction s1 generalizing s2 with
  | nil =>
    cases s2 with
    | nil => simp [lexLess, List.Lex.not_nil_right]
    | cons b t => simp [lexLess, List.Lex.nil]
  | cons a s ih =>
    cases s2 with
    | nil => simp [lexLess, List.Lex.not_nil_right]
    | cons b t =>
      rw [lexLess]
      simp only [Bool.or_eq_true, Bool.and_eq_true, decide_eq_true_eq, ih t]
      constructor
      · rintro (h | ⟨rfl, h⟩)
        · exact List.Lex.rel h
        · exact List.Lex.cons h
      · intro h
        cases h with
        | cons h => exact Or.inr ⟨rfl, h⟩
        | rel h => exact Or.inl h

theorem string_cmp_iff_lex (s1 s2 : CppString) :
    string_cmp s1 s2 = true ↔ List.Lex (· < ·) s1 s2 := by
  rw [string_cmp_eq_lexLess, lexLess_iff_lex]

theorem string_cmp_irrefl (a : CppString) : string_cmp a a = false := by
  rw [Bool.eq_false_iff, Ne, string_cmp_iff_lex]
  exact irrefl_of (List.Lex (· < ·)) a

theorem string_cmp_trans {a b c : CppString} (h1 : string_cmp a b = true)
    (h2 : string_cmp b c = true) : string_cmp a c = true := by
  rw [string_cmp_iff_lex] at *
  exact trans_of (List.Lex (· < ·)) h1 h2

theorem string_cmp_asymm {a b : CppString} (h1 : string_cmp a b = true) :
    string_cmp b a = false := by
  rw [Bool.eq_false_iff, Ne, string_cmp_iff_lex]
  rw [string_cmp_iff_lex] at h1
  exact asymm_of (List.Lex (· < ·)) h1

theorem string_cmp_trichotomous (a b : CppString) :
    string_cmp a b = true ∨ a = b ∨ string_cmp b a = true := by
  simp only [string_cmp_iff_lex]
  exact trichotomous_of (List.Lex (· < ·)) a b

theorem equiv_iff_eq (a b : CppString) : ChannelMap.equiv a b = true ↔ a = b := by
  unfold ChannelMap.equiv
  constructor
  · intro h
    simp only [Bool.and_eq_true, Bool.not_eq_true'] at h
    rcases string_cmp_trichotomous a b with h1 | h1 | h1
    · rw [h.1] at h1; cases h1
    · exact h1
    · rw [h.2] at h1; cases h1
  · rintro rfl
    simp [string_cmp_irrefl]

/-! ## Facts about the map operations -/

namespace ChannelMap

theorem eq_of_not_cmp {a b : CppString} (h1 : string_cmp a b = false)
    (h2 : string_cmp b a = false) : a = b := by
  rcases string_cmp_trichotomous a b with h | h | h
  · rw [h1] at h; cases h
  · exact h
  · rw [h2] at h; cases h

theorem fst_mem_insert {cm : ChannelMap} {k : CppString} {v : ChannelPtr}
    {e : CppString × ChannelPtr} (h : e ∈ cm.insert k v) : e.1 = k ∨ e ∈ cm := by
  induction cm with
  | nil =>
    simp only [insert, List.mem_singleton] at h
    exact Or.inl (by rw [h])
  | cons hd rest ih =>
    obtain ⟨k', v'⟩ := hd
    simp only [insert] at h
    split_ifs at h with h1 h2
    · rcases List.mem_cons.1 h with h | h
      · exact Or.inl (by rw [h])
      · exact Or.inr h
    · rcases List.mem_cons.1 h with h | h
      · exact Or.inr (h ▸ List.mem_cons_self _ _)
      · rcases ih h with h | h
        · exact Or.inl h
        · exact Or.inr (List.mem_cons_of_mem _ h)
    · exact Or.inr h

theorem sorted_insert {cm : ChannelMap} (k : CppString) (v : ChannelPtr) (h : cm.Sorted) :
    (cm.insert k v).Sorted := by
  induction cm with
  | nil => simp [insert, Sorted]
  | cons hd rest ih =>
    obtain ⟨k', v'⟩ := hd
    have hh := List.pairwise_cons.1 h
    simp only [insert]
    split_ifs with h1 h2
    · refine List.pairwise_cons.2 ⟨?_, h⟩
      intro e he
      rcases List.mem_cons.1 he with he | he
      · rw [he]; exact h1
      · exact string_cmp_trans h1 (hh.1 e he)
    · refine List.pairwise_cons.2 ⟨?_, ih hh.2⟩
      intro e he
      rcases fst_mem_insert he with he | he
      · rw [he]; exact h2
      · exact hh.1 e he
    · exact h

theorem fst_mem_assign {cm : ChannelMap} {k : CppString} {v : ChannelPtr}
    {e : CppString × ChannelPtr} (h : e ∈ cm.assign k v) : e.1 = k ∨ e ∈ cm := by
  induction cm with
  | nil =>
    simp only [assign, List.mem_singleton] at h
    exact Or.inl (by rw [h])
  | cons hd rest ih =>
    obtain ⟨k', v'⟩ := hd
    simp only [assign] at h
    split_ifs at h with h1 h2
    · rcases List.mem_cons.1 h with h | h
      · exact Or.inl (by rw [h])
      · exact Or.inr h
    · rcases List.mem_cons.1 h with h | h
      · exact Or.inr (h ▸ List.mem_cons_self _ _)
      · rcases ih h with h | h
        · exact Or.inl h
        · exact Or.inr (List.mem_cons_of_mem _ h)
    · rcases List.mem_cons.1 h with h | h
      · left
        rw [h]
        exact eq_of_not_cmp (by simpa using h2) (by simpa using h1)
      · exact Or.inr (List.mem_cons_of_mem _ h)

theorem sorted_assign {cm : ChannelMap} (k : CppString) (v : ChannelPtr) (h : cm.Sorted) :
    (cm.assign k v).Sorted := by
  induction cm with
  | nil => simp [assign, Sorted]
  | cons hd rest ih =>
    obtain ⟨k', v'⟩ := hd
    have hh := List.pairwise_cons.1 h
    simp only [assign]
    split_ifs with h1 h2
    · refine List.pairwise_cons.2 ⟨?_, h⟩
      intro e he
      rcases List.mem_cons.1 he with he | he
      · rw [he]; exact h1
      · exact string_cmp_trans h1 (hh.1 e he)
    · refine List.pairwise_cons.2 ⟨?_, ih hh.2⟩
      intro e he
      rcases fst_mem_assign he with he | he
      · rw [he]; exact h2
      · exact hh.1 e he
    · exact List.pairwise_cons.2 ⟨hh.1, hh.2⟩

theorem erase_sublist (cm : ChannelMap) (k : CppString) : List.Sublist (cm.erase k) cm := by
  induction cm with
  | nil => simp [erase]
  | cons hd rest ih =>
    obtain ⟨k', v'⟩ := hd
    simp only [erase]
    split_ifs with h
    · exact List.sublist_cons_self _ _
    · exact ih.cons₂ _

theorem sorted_erase {cm : ChannelMap} (k : CppString) (h : cm.Sorted) :
    (cm.erase k).Sorted :=
  List.Pairwise.sublist (erase_sublist cm k) h

theorem sorted_apply {cm : ChannelMap} (op : MapOp) (h : cm.Sorted) : (cm.apply op).Sorted := by
  cases op with
  | insert k v => exact sorted_insert k v h
  | assign k v => exact sorted_assign k v h
  | erase k => exact sorted_erase k h

theorem sorted_foldl_apply (ops : List MapOp) {cm : ChannelMap} (h : cm.Sorted) :
    (ops.foldl ChannelMap.apply cm).Sorted := by
  induction ops generalizing cm with
  | nil => exact h
  | cons op ops ih => exact ih (sorted_apply op h)

theorem sorted_run (ops : List MapOp) : (run ops).Sorted :=
  sorted_foldl_apply ops List.Pairwise.nil

theorem Sorted.nodup_keys {cm : ChannelMap} (h : cm.Sorted) : cm.keys.Nodup := by
  unfold keys List.Nodup
  rw [List.pairwise_map]
  refine List.Pairwise.imp ?_ h
  intro a b hab e
  rw [e, string_cmp_irrefl] at hab
  cases hab

theorem Sorted.eq_of_perm {a b : ChannelMap} (ha : a.Sorted) (hb : b.Sorted)
    (hp : List.Perm a b) : a = b := by
  haveI : IsAntisymm (CppString × ChannelPtr) (fun a b => string_cmp a.1 b.1 = true) :=
    ⟨fun x y h1 h2 => by rw [string_cmp_asymm h1] at h2; cases h2⟩
  exact List.eq_of_perm_of_sorted hp ha hb

theorem insert_perm {cm : ChannelMap} {k : CppString} (v : ChannelPtr) (h : k ∉ cm.keys) :
    List.Perm (cm.insert k v) ((k, v) :: cm) := by
  induction cm with
  | nil => simp [insert]
  | cons hd rest ih =>
    obtain ⟨k', v'⟩ := hd
    simp only [keys, List.map_cons, List.mem_cons, not_or] at h
    simp only [insert]
    split_ifs with h1 h2
    · exact List.Perm.refl _
    · exact ((ih h.2).cons _).trans (List.Perm.swap _ _ _)
    · exact absurd (eq_of_not_cmp (by simpa using h1) (by simpa using h2)) h.1

theorem foldl_insert_perm (l : List (CppString × ChannelPtr)) (cm : ChannelMap)
    (h : (cm ++ l).map Prod.fst |>.Nodup) :
    List.Perm (l.foldl (fun (cm : ChannelMap) e => ChannelMap.insert cm e.1 e.2) cm) (cm ++ l) := by
  induction l generalizing cm with
  | nil => simp
  | cons e l ih =>
    have hp : List.Perm (cm.insert e.1 e.2) (e :: cm) := by
      apply insert_perm
      rw [List.map_append, List.map_cons] at h
      have := (List.nodup_append.1 h).2.2
      intro hk
      exact this hk (List.mem_cons_self _ _)
    have hp2 : List.Perm (cm.insert e.1 e.2 ++ l) (cm ++ e :: l) :=
      (hp.append_right l).trans (List.perm_middle.symm)
    rw [List.foldl_cons]
    refine (ih _ ?_).trans hp2
    exact ((hp2.map Prod.fst).nodup_iff).2 h

theorem insertAll_perm {l : List (CppString × ChannelPtr)} (h : (l.map Prod.fst).Nodup) :
    List.Perm (insertAll l) l := by
  simpa using foldl_insert_perm l [] (by simpa using h)

theorem sorted_insertAll (l : List (CppString × ChannelPtr)) : (insertAll l).Sorted := by
  unfold insertAll
  suffices H : ∀ cm : ChannelMap, cm.Sorted →
      (l.foldl (fun (cm : ChannelMap) e => ChannelMap.insert cm e.1 e.2) cm).Sorted from H [] List.Pairwise.nil
  induction l with
  | nil => exact fun cm h => h
  | cons e l ih => exact fun cm h => ih _ (sorted_insert e.1 e.2 h)

end ChannelMap

/-! ## Facts about the iterator -/

namespace ChannelIteratorImpl

theorem eq_of_cm_of_it {s t : ChannelIteratorImpl} (h1 : s.cm = t.cm)
    (h2 : s.it.val = t.it.val) : s = t := by
  obtain ⟨scm, sit⟩ := s
  obtain ⟨tcm, tit⟩ := t
  simp only at h1 h2
  subst h1
  have : sit = tit := Fin.ext h2
  rw [this]

theorem hasNext_iff_lt (s : ChannelIteratorImpl) :
    s.hasNext = true ↔ s.it.val < s.cm.size := by
  have hle : s.it.val ≤ s.cm.size := Nat.le_of_lt_succ s.it.isLt
  simp only [hasNext, ChannelMap.end_, bne_iff_ne, ne_eq, Fin.ext_iff]
  omega

theorem getNext_of_not_hasNext {s : ChannelIteratorImpl} (h : s.hasNext = false) :
    s.getNext = (NULL, s) := by
  simp [getNext, h]

theorem getNext_of_lt (s : ChannelIteratorImpl) (h : s.it.val < s.cm.size) :
    s.getNext.1 = (s.cm.get ⟨s.it.val, h⟩).2 ∧ s.getNext.2.cm = s.cm ∧
      s.getNext.2.it.val = s.it.val + 1 := by
  have hn : ¬ s.hasNext = false := by
    rw [Bool.not_eq_false]; exact (hasNext_iff_lt s).2 h
  unfold getNext
  rw [dif_neg hn]
  exact ⟨rfl, rfl, rfl⟩

theorem drain_of_le (n : Nat) (s : ChannelIteratorImpl) (h : s.it.val + n ≤ s.cm.size) :
    (drain n s).1 = ((s.cm.drop s.it.val).take n).map Prod.snd ∧
      (drain n s).2.cm = s.cm ∧ (drain n s).2.it.val = s.it.val + n := by
  induction n generalizing s with
  | zero => simp [drain]
  | succ n ih =>
    have hlt : s.it.val < s.cm.size := by omega
    obtain ⟨g1, g2, g3⟩ := getNext_of_lt s hlt
    have hle : s.getNext.2.it.val + n ≤ s.getNext.2.cm.size := by
      rw [g3, g2]; omega
    obtain ⟨d1, d2, d3⟩ := ih s.getNext.2 hle
    simp only [drain]
    refine ⟨?_, d2.trans g2, by rw [d3, g3]; omega⟩
    rw [d1, g3, g2, g1]
    have hd : s.cm.drop s.it.val = s.cm.get ⟨s.it.val, hlt⟩ :: s.cm.drop (s.it.val + 1) := by
      exact List.drop_eq_getElem_cons hlt
    rw [hd]
    rfl

theorem drain_of_not_hasNext (n : Nat) {s : ChannelIteratorImpl} (h : s.hasNext = false) :
    drain n s = (List.replicate n NULL, s) := by
  induction n with
  | zero => rfl
  | succ n ih => simp [drain, getNext_of_not_hasNext h, ih, List.replicate_succ]

theorem drain_reset (s : ChannelIteratorImpl) :
    (drain s.cm.size s.reset).1 = s.cm.map Prod.snd ∧
      (drain s.cm.size s.reset).2 = ⟨s.cm, s.cm.end_⟩ := by
  have h0 : s.reset.it.val + s.cm.size ≤ s.reset.cm.size := by
    simp [reset, ChannelMap.begin]
  obtain ⟨d1, d2, d3⟩ := drain_of_le s.cm.size s.reset h0
  constructor
  · rw [d1]
    simp [reset, ChannelMap.begin, ChannelMap.size]
  · apply eq_of_cm_of_it
    · rw [d2]; rfl
    · rw [d3]; simp [reset, ChannelMap.begin, ChannelMap.end_]

end ChannelIteratorImpl

open ChannelIteratorImpl

/-! ## The iterator contract -/

theorem ChannelMap.Reachable.sorted {cm : ChannelMap} (h : cm.Reachable) : cm.Sorted := by
  obtain ⟨ops, rfl⟩ := h
  exact ChannelMap.sorted_run ops

theorem ChannelMap.Sorted.keys_lex {cm : ChannelMap} (h : cm.Sorted) :
    cm.keys.Pairwise (List.Lex (· < ·)) := by
  unfold ChannelMap.keys
  rw [List.pairwise_map]
  exact List.Pairwise.imp (fun hab => (string_cmp_iff_lex _ _).1 hab) h

/-- C1: over a reachable collection whose stored pointers are all non-null, an iterator
that has been reset and is drained by `size()` calls of `getNext()` yields exactly
`size()` results, none of them null: the stored pointers, each once, in the order of
strictly ascending names. After those calls `hasNext()` is false and a further
`getNext()` returns `NULL`. The order the entries were inserted in plays no part:
inserting the entries in any order gives the same collection. -/
theorem drain_after_reset_yields_all_in_name_order (s : ChannelIteratorImpl)
    (hr : s.cm.Reachable) (hnn : ∀ e ∈ s.cm, e.2 ≠ NULL) :
    (drain s.cm.size s.reset).1 = s.cm.map Prod.snd ∧
      (drain s.cm.size s.reset).1.length = s.cm.size ∧
      (∀ p ∈ (drain s.cm.size s.reset).1, p ≠ NULL) ∧
      s.cm.keys.Pairwise (List.Lex (· < ·)) ∧
      s.cm.keys.Nodup ∧
      (drain s.cm.size s.reset).2.cm = s.cm ∧
      (drain s.cm.size s.reset).2.hasNext = false ∧
      (drain s.cm.size s.reset).2.getNext.1 = NULL ∧
      (∀ l : List (CppString × ChannelPtr), List.Perm l s.cm →
        ChannelMap.insertAll l = s.cm) := by
  obtain ⟨d1, d2⟩ := drain_reset s
  have hs := hr.sorted
  have hex : (drain s.cm.size s.reset).2.hasNext = false := by
    rw [d2]; simp [hasNext]
  refine ⟨d1, ?_, ?_, hs.keys_lex, hs.nodup_keys, ?_, hex, ?_, ?_⟩
  · rw [d1]; simp [ChannelMap.size]
  · intro p hp
    rw [d1] at hp
    obtain ⟨e, he, rfl⟩ := List.mem_map.1 hp
    exact hnn e he
  · rw [d2]
  · rw [getNext_of_not_hasNext hex]
  · intro l hl
    have hnd : (l.map Prod.fst).Nodup := ((hl.map Prod.fst).nodup_iff).2 hs.nodup_keys
    exact ChannelMap.Sorted.eq_of_perm (ChannelMap.sorted_insertAll l) hs
      ((ChannelMap.insertAll_perm hnd).trans hl)

/-- C2: when `hasNext()` is true there is an entry at the cursor, `getNext()` returns
the pointer stored in it, and afterwards the cursor is one position further along the
same, unchanged collection. -/
theorem getNext_returns_current_and_advances (s : ChannelIteratorImpl)
    (h : s.hasNext = true) :
    ∃ e, s.cm[s.it.val]? = some e ∧ s.getNext.1 = e.2 ∧
      s.getNext.2.cm = s.cm ∧ s.getNext.2.it.val = s.it.val + 1 := by
  have hlt := (hasNext_iff_lt s).1 h
  obtain ⟨g1, g2, g3⟩ := getNext_of_lt s hlt
  refine ⟨s.cm.get ⟨s.it.val, hlt⟩, ?_, g1, g2, g3⟩
  exact List.getElem?_eq_getElem hlt

/-- C3: when `hasNext()` is false, `getNext()` returns `NULL` and the iterator after the
call is the iterator before it; so `hasNext()` is still false, and any number of further
`getNext()` calls return `NULL` and leave the iterator where it was. -/
theorem getNext_exhausted_returns_null (s : ChannelIteratorImpl) (h : s.hasNext = false) :
    s.getNext = (NULL, s) ∧ s.getNext.2.hasNext = false ∧
      ∀ n : Nat, drain n s = (List.replicate n NULL, s) := by
  refine ⟨getNext_of_not_hasNext h, ?_, fun n => drain_of_not_hasNext n h⟩
  rw [getNext_of_not_hasNext h]; exact h

/-- C4: `hasNext()` is true exactly when the cursor is not `end()`, that is when it is
before the position one past the last entry. The call leaves the iterator as it was: a
second `hasNext()` returns the same value, and a `getNext()` after it returns what it
returns without it. -/
theorem hasNext_iff_not_at_end (s : ChannelIteratorImpl) :
    (s.hasNext = true ↔ s.it ≠ s.cm.end_) ∧
      (s.hasNext = true ↔ s.it.val < s.cm.size) ∧
      (call .hasNext s).1 = .bool s.hasNext ∧
      (call .hasNext s).2 = s ∧
      (call .hasNext (call .hasNext s).2).1 = (call .hasNext s).1 ∧
      call .getNext (call .hasNext s).2 = call .getNext s := by
  refine ⟨?_, hasNext_iff_lt s, rfl, rfl, rfl, rfl⟩
  simp [hasNext]

/-- C5: a freshly constructed iterator has its cursor at `begin()`. Over a reachable
collection, `hasNext()` is then true exactly when the collection has an entry; when it
has one, the first `getNext()` returns the pointer of the entry whose name is strictly
below every other name of the collection; when it has none, the first `getNext()`
returns `NULL`. -/
theorem new_is_positioned_at_least_name (cm : ChannelMap) (hr : cm.Reachable) :
    (new cm).cm = cm ∧ (new cm).it.val = 0 ∧
      ((new cm).hasNext = true ↔ cm.size ≠ 0) ∧
      (cm.size ≠ 0 → ∃ e ∈ cm, (new cm).getNext.1 = e.2 ∧
        ∀ e' ∈ cm, e' = e ∨ List.Lex (· < ·) e.1 e'.1) ∧
      (cm.size = 0 → (new cm).getNext.1 = NULL) := by
  have hit : (new cm).it.val = 0 := rfl
  have hcm : (new cm).cm = cm := rfl
  have hiff : (new cm).hasNext = true ↔ cm.size ≠ 0 := by
    rw [hasNext_iff_lt, hit, hcm]; omega
  refine ⟨hcm, hit, hiff, ?_, ?_⟩
  · intro hne
    cases cm with
    | nil => exact absurd rfl hne
    | cons e rest =>
      refine ⟨e, List.mem_cons_self _ _, ?_, ?_⟩
      · have hlt : (new (e :: rest)).it.val < (new (e :: rest)).cm.size := by
          rw [← hasNext_iff_lt]; exact hiff.2 hne
        exact (getNext_of_lt _ hlt).1
      · intro e' he'
        rcases List.mem_cons.1 he' with h | h
        · exact Or.inl h
        · exact Or.inr ((string_cmp_iff_lex _ _).1 ((List.pairwise_cons.1 hr.sorted).1 e' h))
  · intro h0
    have : (new cm).hasNext = false := by
      rw [Bool.eq_false_iff]; intro h; exact hiff.1 h h0
    rw [getNext_of_not_hasNext this]

theorem getNext_cm (s : ChannelIteratorImpl) : s.getNext.2.cm = s.cm := by
  cases h : s.hasNext with
  | false => rw [getNext_of_not_hasNext h]
  | true => exact (getNext_of_lt s ((hasNext_iff_lt s).1 h)).2.1

theorem drain_cm (n : Nat) (s : ChannelIteratorImpl) : (drain n s).2.cm = s.cm := by
  induction n generalizing s with
  | zero => rfl
  | succ n ih => exact (ih s.getNext.2).trans (getNext_cm s)

/-- C6: in every iterator state, and so in the state reached from a fresh iterator by
any number of `getNext()` calls, `reset()` gives the state of a freshly constructed
iterator over the same collection; a drain after it yields all stored pointers again, in
collection order; and a second `reset()` changes nothing. -/
theorem reset_restores_fresh_state (cm : ChannelMap) (k : Nat) (s : ChannelIteratorImpl) :
    s.reset = new s.cm ∧
      (drain k (new cm)).2.reset = new cm ∧
      s.reset.reset = s.reset ∧
      (drain s.cm.size s.reset).1 = s.cm.map Prod.snd ∧
      (drain cm.size (drain k (new cm)).2.reset).1 = (drain cm.size (new cm)).1 ∧
      (drain cm.size (drain k (new cm)).2.reset).1 = cm.map Prod.snd := by
  have h1 : ∀ t : ChannelIteratorImpl, t.reset = new t.cm := fun t => rfl
  have h2 : (drain k (new cm)).2.reset = new cm := by
    rw [h1, drain_cm]; rfl
  have h3 : (drain cm.size (new cm)).1 = cm.map Prod.snd :=
    (drain_reset ⟨cm, cm.end_⟩).1
  refine ⟨h1 s, h2, rfl, (drain_reset s).1, ?_, ?_⟩
  · rw [h2]
  · rw [h2, h3]

/-! ## The comparator and the collection -/

namespace ChannelMap

theorem erase_of_not_mem {cm : ChannelMap} {k : CppString} (h : k ∉ cm.keys) :
    cm.erase k = cm := by
  induction cm with
  | nil => rfl
  | cons hd rest ih =>
    obtain ⟨k', v'⟩ := hd
    simp only [keys, List.map_cons, List.mem_cons, not_or] at h
    have hne : equiv k' k = false := by
      rw [Bool.eq_false_iff, Ne, equiv_iff_eq]; exact fun e => h.1 e.symm
    simp only [erase, hne, Bool.false_eq_true, if_false]
    rw [ih h.2]

theorem size_erase_of_mem {cm : ChannelMap} {k : CppString} (h : k ∈ cm.keys) :
    (cm.erase k).size + 1 = cm.size := by
  induction cm with
  | nil => simp [keys] at h
  | cons hd rest ih =>
    obtain ⟨k', v'⟩ := hd
    simp only [erase]
    split_ifs with he
    · rfl
    · have hk : k ∈ keys rest := by
        simp only [keys, List.map_cons, List.mem_cons] at h
        rcases h with h | h
        · exact absurd ((equiv_iff_eq k' k).2 h.symm) he
        · exact h
      have := ih hk
      simp only [size, List.length_cons] at this ⊢
      omega

theorem erase_eq_filter {cm : ChannelMap} (hs : cm.Sorted) (k : CppString) :
    cm.erase k = cm.filter (fun e => decide (e.1 ≠ k)) := by
  induction cm with
  | nil => rfl
  | cons hd rest ih =>
    obtain ⟨k', v'⟩ := hd
    have hh := List.pairwise_cons.1 hs
    simp only [erase]
    split_ifs with he
    · have hk : k' = k := (equiv_iff_eq k' k).1 he
      subst hk
      have hnot : k' ∉ keys rest := by
        have := List.nodup_cons.1 (Sorted.nodup_keys hs)
        exact this.1
      rw [List.filter_cons_of_neg (by simp)]
      symm
      rw [List.filter_eq_self]
      intro e hmem
      simp only [ne_eq, decide_not, Bool.not_eq_true', decide_eq_false_iff_not]
      intro hek
      exact hnot (hek ▸ List.mem_map_of_mem Prod.fst hmem)
    · have hk : k' ≠ k := fun e => he ((equiv_iff_eq k' k).2 e)
      rw [List.filter_cons_of_pos (by simpa using hk), ih hh.2]

theorem find_eq_end_iff (cm : ChannelMap) (k : CppString) :
    cm.find k = cm.end_ ↔ k ∉ cm.keys := by
  simp only [find, end_, Fin.ext_iff, size, List.findIdx_eq_length, keys, List.mem_map,
    not_exists, not_and]
  constructor
  · intro h e he hek
    have := h e he
    rw [Bool.eq_false_iff, Ne, equiv_iff_eq] at this
    exact this hek
  · intro h e he
    rw [Bool.eq_false_iff, Ne, equiv_iff_eq]
    exact h e he

theorem not_mem_keys_erase {cm : ChannelMap} (hs : cm.Sorted) (k : CppString) :
    k ∉ (cm.erase k).keys := by
  rw [erase_eq_filter hs]
  simp [keys]

end ChannelMap

/-- C7: `string_cmp(s1, s2)` is true exactly when `s1` is strictly below `s2` in the
lexicographic order of their bytes, the bytes taken as unsigned values: the first byte
where the two differ decides, and a string is below every proper extension of itself.
In every reachable collection the names are strictly ascending in this order from
`begin()` to `end()`. -/
theorem string_cmp_is_bytewise_lexicographic (s1 s2 p t : CppString) (a b : Fin 256)
    (ops : List MapOp) :
    string_cmp s1 s2 = lexLess s1 s2 ∧
      (string_cmp s1 s2 = true ↔ List.Lex (fun x y : Fin 256 => x.val < y.val) s1 s2) ∧
      string_cmp s1 (s1 ++ b :: t) = true ∧
      string_cmp (s1 ++ b :: t) s1 = false ∧
      string_cmp (p ++ a :: s1) (p ++ b :: s2) =
        (decide (a.val < b.val) || (decide (a = b) && string_cmp s1 s2)) ∧
      (ChannelMap.run ops).keys.Pairwise (fun x y => lexLess x y = true) := by
  have hpre : ∀ (q u v : CppString), string_cmp (q ++ u) (q ++ v) = string_cmp u v := by
    intro q u v
    induction q with
    | nil => rfl
    | cons c q ih =>
      rw [string_cmp_eq_lexLess] at ih ⊢
      simp [lexLess, ih]
  have hext : string_cmp s1 (s1 ++ b :: t) = true := by
    have := hpre s1 [] (b :: t)
    rw [List.append_nil] at this
    rw [this, string_cmp_eq_lexLess]; rfl
  refine ⟨string_cmp_eq_lexLess s1 s2, string_cmp_iff_lex s1 s2, hext,
    string_cmp_asymm hext, ?_, ?_⟩
  · rw [hpre, string_cmp_eq_lexLess, lexLess, string_cmp_eq_lexLess]
    rfl
  · have := ChannelMap.sorted_run ops
    unfold ChannelMap.keys
    rw [List.pairwise_map]
    exact List.Pairwise.imp (fun hab => by rw [← string_cmp_eq_lexLess]; exact hab) this

/-- C8: a collection reached from the empty one by any sequence of insertions,
assignments and removals holds no name twice; and the map takes two keys for the same
entry (neither ordered before the other by `string_cmp`) exactly when they are equal
strings. -/
theorem reachable_names_are_unique (ops : List MapOp) (a b : CppString) :
    (ChannelMap.run ops).keys.Nodup ∧
      ((string_cmp a b = false ∧ string_cmp b a = false) ↔ a = b) ∧
      (ChannelMap.equiv a b = true ↔ a = b) := by
  refine ⟨(ChannelMap.sorted_run ops).nodup_keys, ?_, equiv_iff_eq a b⟩
  constructor
  · rintro ⟨h1, h2⟩
    exact ChannelMap.eq_of_not_cmp h1 h2
  · rintro rfl
    exact ⟨string_cmp_irrefl a, string_cmp_irrefl a⟩

/-- C9: in a reachable collection, removing a name that is present lowers `size()` by
exactly one, makes `find()` of that name return `end()`, and keeps every entry under
another name, with its pointer, in the same relative order; removing a name that is not
present leaves the collection as it was. A name is present exactly when `find()` of it
is not `end()`. -/
theorem erase_removes_exactly_that_name (cm : ChannelMap) (hr : cm.Reachable)
    (k : CppString) :
    (cm.find k ≠ cm.end_ ↔ k ∈ cm.keys) ∧
      (k ∈ cm.keys →
        (cm.erase k).size + 1 = cm.size ∧
        (cm.erase k).find k = (cm.erase k).end_ ∧
        cm.erase k = cm.filter (fun e => decide (e.1 ≠ k))) ∧
      (k ∉ cm.keys → cm.erase k = cm) := by
  have hs := hr.sorted
  refine ⟨?_, fun hk => ⟨ChannelMap.size_erase_of_mem hk, ?_,
    ChannelMap.erase_eq_filter hs k⟩, ChannelMap.erase_of_not_mem⟩
  · rw [Ne, ChannelMap.find_eq_end_iff, not_not]
  · rw [ChannelMap.find_eq_end_iff]
    exact ChannelMap.not_mem_keys_erase hs k

/-! ## The channel constructor -/

theorem index_lt_of_in_range {width height x y : Int} (hx0 : 0 ≤ x) (hx : x < width)
    (hy0 : 0 ≤ y) (hy : y < height) :
    0 ≤ x + y * width ∧ x + y * width < width * height := by
  have hw : 0 < width := lt_of_le_of_lt hx0 hx
  constructor
  · have := mul_nonneg hy0 hw.le
    omega
  · have h1 : (y + 1) * width ≤ height * width :=
      mul_le_mul_of_nonneg_right (by omega) hw.le
    have h2 : (y + 1) * width = y * width + width := by ring
    have h3 : height * width = width * height := mul_comm _ _
    omega

theorem index_injective {width x y x' y' : Int} (hx0 : 0 ≤ x) (hx : x < width)
    (hx0' : 0 ≤ x') (hx' : x' < width) (h : x + y * width = x' + y' * width) :
    x = x' ∧ y = y' := by
  have hw : 0 < width := lt_of_le_of_lt hx0 hx
  have e1 : (x + y * width) % width = x := by
    rw [Int.add_mul_emod_self]; exact Int.emod_eq_of_lt hx0 hx
  have e2 : (x' + y' * width) % width = x' := by
    rw [Int.add_mul_emod_self]; exact Int.emod_eq_of_lt hx0' hx'
  have hxx : x = x' := by rw [← e1, ← e2, h]
  refine ⟨hxx, ?_⟩
  subst hxx
  have : y * width = y' * width := by omega
  exact Int.eq_of_mul_eq_mul_right hw.ne' this

/-- C10: for positive `width` and `height`, the channel constructed as
`ChannelImpl(width, height, name)` reports that width, that height and that name; its
raw table has exactly `width*height` samples; for every column `x` and row `y` of the
channel the index `x + y*width` lies in the table and holds the sample that the
row/column view gives for `(x, y)`; and different positions have different indices. -/
theorem channel_new_dimensions_and_layout (width height : Int) (hw : 0 < width)
    (hh : 0 < height) (name : CppString) (mem : Nat → CFloat) :
    (ChannelImpl.new width height name mem).getWidth = width ∧
      (ChannelImpl.new width height name mem).getHeight = height ∧
      (ChannelImpl.new width height name mem).getName = name ∧
      ((ChannelImpl.new width height name mem).getRawData.length : Int) = width * height ∧
      (∀ x y : Int, 0 ≤ x → x < width → 0 ≤ y → y < height →
        0 ≤ x + y * width ∧ x + y * width < width * height ∧
        ∃ v, (ChannelImpl.new width height name mem).getRawData[(x + y * width).toNat]?
              = some v ∧
          (ChannelImpl.new width height name mem).getChannelData.elem x y = some v) ∧
      (∀ x y x' y' : Int, 0 ≤ x → x < width → 0 ≤ x' → x' < width →
        x + y * width = x' + y' * width → x = x' ∧ y = y') := by
  have hlen : ((ChannelImpl.new width height name mem).getRawData.length : Int)
      = width * height := by
    simp only [ChannelImpl.new, ChannelImpl.getRawData, Array2DImpl.new,
      Array2DImpl.getRawData, List.length_map, List.length_range]
    exact Int.toNat_of_nonneg (mul_nonneg hw.le hh.le)
  refine ⟨rfl, rfl, rfl, hlen, ?_, ?_⟩
  · intro x y hx0 hx hy0 hy
    obtain ⟨h0, h1⟩ := index_lt_of_in_range hx0 hx hy0 hy
    have hlt : (x + y * width).toNat <
        (ChannelImpl.new width height name mem).getRawData.length := by
      have : ((x + y * width).toNat : Int) = x + y * width := Int.toNat_of_nonneg h0
      omega
    refine ⟨h0, h1, (ChannelImpl.new width height name mem).getRawData.get ⟨_, hlt⟩,
      List.getElem?_eq_getElem hlt, ?_⟩
    simp only [ChannelImpl.getChannelData, Array2DImpl.elem]
    have hc : (ChannelImpl.new width height name mem).channel_impl.cols = width := rfl
    rw [hc, if_pos h0]
    exact List.getElem?_eq_getElem hlt
  · intro x y x' y' hx0 hx hx0' hx' h
    exact index_injective hx0 hx hx0' hx' h

/-! ## Null results and the order of names -/

/-- C11: over a collection whose stored pointers are all non-null, in every iterator
state, `getNext()` returns `NULL` exactly when `hasNext()` was false before the call,
and a `NULL` result leaves the iterator where it was: no entry was consumed. The
condition on the stored pointers is needed, as `getNext()` does not look at the pointer
it returns: over the reachable collection holding a null pointer under `"A"`, a fresh
iterator has `hasNext()` true and `getNext()` returns `NULL` while moving the cursor. -/
theorem getNext_null_iff_exhausted (s : ChannelIteratorImpl)
    (hnn : ∀ e ∈ s.cm, e.2 ≠ NULL) :
    (s.getNext.1 = NULL ↔ s.hasNext = false) ∧
      (s.getNext.1 = NULL → s.getNext.2 = s) ∧
      (s.getNext.1 ≠ NULL → s.getNext.2.it.val = s.it.val + 1) ∧
      (ChannelMap.Reachable [(nameA, NULL)] ∧
        (ChannelIteratorImpl.new [(nameA, NULL)]).hasNext = true ∧
        (ChannelIteratorImpl.new [(nameA, NULL)]).getNext.1 = NULL ∧
        (ChannelIteratorImpl.new [(nameA, NULL)]).getNext.2.it.val = 1) := by
  have hiff : s.getNext.1 = NULL ↔ s.hasNext = false := by
    constructor
    · intro hnull
      cases h : s.hasNext with
      | false => rfl
      | true =>
        have hlt := (hasNext_iff_lt s).1 h
        have hg := (getNext_of_lt s hlt).1
        rw [hg] at hnull
        exact absurd hnull (hnn _ (List.get_mem _ _ _))
    · intro h
      rw [getNext_of_not_hasNext h]
  refine ⟨hiff, ?_, ?_, ⟨[.insert nameA NULL], rfl⟩, by decide, by decide, by decide⟩
  · intro hnull
    rw [getNext_of_not_hasNext (hiff.1 hnull)]
  · intro hne
    have h : s.hasNext = true := by
      cases h : s.hasNext with
      | false => exact absurd (hiff.2 h) hne
      | true => rfl
    exact (getNext_of_lt s ((hasNext_iff_lt s).1 h)).2.2

/-- C12: `string_cmp` is a strict total order on strings: no string is ordered before
itself; the order is transitive; and of `string_cmp(a, b)`, `a = b`, `string_cmp(b, a)`
exactly one holds. -/
theorem string_cmp_strict_total_order (a b c : CppString) :
    string_cmp a a = false ∧
      (string_cmp a b = true → string_cmp b c = true → string_cmp a c = true) ∧
      (string_cmp a b = true ∨ a = b ∨ string_cmp b a = true) ∧
      ¬ (string_cmp a b = true ∧ a = b) ∧
      ¬ (string_cmp a b = true ∧ string_cmp b a = true) ∧
      ¬ (a = b ∧ string_cmp b a = true) := by
  refine ⟨string_cmp_irrefl a, fun h1 h2 => string_cmp_trans h1 h2,
    string_cmp_trichotomous a b, ?_, ?_, ?_⟩
  · rintro ⟨h, rfl⟩
    rw [string_cmp_irrefl] at h
    cases h
  · rintro ⟨h1, h2⟩
    rw [string_cmp_asymm h1] at h2
    cases h2
  · rintro ⟨rfl, h⟩
    rw [string_cmp_irrefl] at h
    cases h

/-! ## The contract on worked examples -/

/-- Witness for C1: the collection holding `"A"`, `"B"`, `"C"`, inserted as `"C"`,
`"A"`, `"B"`, drains to the three pointers in name order and is then exhausted. -/
theorem drain_after_reset_witness :
    mapABC.Reachable ∧ (∀ e ∈ mapABC, e.2 ≠ NULL) ∧
      (drain 3 (ChannelIteratorImpl.new mapABC).reset).1 = [10, 20, 30] ∧
      (drain 3 (ChannelIteratorImpl.new mapABC).reset).2.hasNext = false ∧
      (drain 3 (ChannelIteratorImpl.new mapABC).reset).2.getNext.1 = NULL :=
  have hr : mapABC.Reachable := ⟨opsCAB, by decide⟩
  have hnn : ∀ e ∈ mapABC, e.2 ≠ NULL := by decide
  have h := drain_after_reset_yields_all_in_name_order (ChannelIteratorImpl.new mapABC) hr hnn
  ⟨hr, hnn, h.1, h.2.2.2.2.2.2.1, h.2.2.2.2.2.2.2.1⟩

/-- Witness for C2: a fresh iterator over the three-entry collection. -/
theorem getNext_returns_current_witness :
    (ChannelIteratorImpl.new mapABC).hasNext = true ∧
      ∃ e, mapABC[0]? = some e ∧ (ChannelIteratorImpl.new mapABC).getNext.1 = e.2 ∧
        (ChannelIteratorImpl.new mapABC).getNext.2.cm = mapABC ∧
        (ChannelIteratorImpl.new mapABC).getNext.2.it.val = 0 + 1 :=
  ⟨by decide, getNext_returns_current_and_advances (ChannelIteratorImpl.new mapABC) (by decide)⟩

/-- Witness for C3: an iterator at `end()` of the three-entry collection. -/
theorem getNext_exhausted_witness :
    (ChannelIteratorImpl.mk mapABC mapABC.end_).hasNext = false ∧
      (ChannelIteratorImpl.mk mapABC mapABC.end_).getNext =
        (NULL, ChannelIteratorImpl.mk mapABC mapABC.end_) :=
  ⟨by decide,
    (getNext_exhausted_returns_null (ChannelIteratorImpl.mk mapABC mapABC.end_) (by decide)).1⟩

/-- Witness for C5: the three-entry collection; the first result is the pointer stored
under `"A"`. -/
theorem new_is_positioned_witness :
    mapABC.Reachable ∧ mapABC.size ≠ 0 ∧
      ((ChannelIteratorImpl.new mapABC).hasNext = true ↔ mapABC.size ≠ 0) ∧
      ∃ e ∈ mapABC, (ChannelIteratorImpl.new mapABC).getNext.1 = e.2 ∧
        ∀ e' ∈ mapABC, e' = e ∨ List.Lex (· < ·) e.1 e'.1 :=
  have hr : mapABC.Reachable := ⟨opsCAB, by decide⟩
  have hne : mapABC.size ≠ 0 := by decide
  have h := new_is_positioned_at_least_name mapABC hr
  ⟨hr, hne, h.2.2.1, h.2.2.2.1 hne⟩

/-- Witness for C9: removing `"B"` from the three-entry collection. -/
theorem erase_removes_witness :
    mapABC.Reachable ∧ nameB ∈ mapABC.keys ∧
      (mapABC.erase nameB).size + 1 = mapABC.size ∧
      (mapABC.erase nameB).find nameB = (mapABC.erase nameB).end_ :=
  have hr : mapABC.Reachable := ⟨opsCAB, by decide⟩
  have hk : nameB ∈ mapABC.keys := by decide
  have h := (erase_removes_exactly_that_name mapABC hr nameB).2.1 hk
  ⟨hr, hk, h.1, h.2.1⟩

/-- Witness for C10: a 2x2 channel named `"Y"`. -/
theorem channel_new_witness :
    (0 : Int) < 2 ∧
      (ChannelImpl.new 2 2 [89] (fun _ => 0)).getWidth = 2 ∧
      (ChannelImpl.new 2 2 [89] (fun _ => 0)).getHeight = 2 ∧
      (ChannelImpl.new 2 2 [89] (fun _ => 0)).getName = [89] ∧
      ((ChannelImpl.new 2 2 [89] (fun _ => 0)).getRawData.length : Int) = 2 * 2 :=
  have h := channel_new_dimensions_and_layout 2 2 (by decide) (by decide) [89] (fun _ => 0)
  ⟨by decide, h.1, h.2.1, h.2.2.1, h.2.2.2.1⟩

/-- Witness for C11: a fresh iterator over the three-entry collection, whose pointers
are non-null, does not return `NULL`, and `hasNext()` is true. -/
theorem getNext_null_iff_exhausted_witness :
    (∀ e ∈ mapABC, e.2 ≠ NULL) ∧
      ((ChannelIteratorImpl.new mapABC).getNext.1 = NULL ↔
        (ChannelIteratorImpl.new mapABC).hasNext = false) ∧
      (ChannelIteratorImpl.new mapABC).getNext.1 = 10 :=
  have hnn : ∀ e ∈ mapABC, e.2 ≠ NULL := by decide
  ⟨hnn, (getNext_null_iff_exhausted (ChannelIteratorImpl.new mapABC) hnn).1, by decide⟩

/-- Witness for C12: `"A"` is before `"B"` and `"B"` before `"C"`, so `"A"` is before
`"C"`. -/
theorem string_cmp_strict_total_order_witness :
    string_cmp nameA nameB = true ∧ string_cmp nameB nameC = true ∧
      string_cmp nameA nameC = true :=
  have h1 : string_cmp nameA nameB = true := by decide
  have h2 : string_cmp nameB nameC = true := by decide
  ⟨h1, h2, (string_cmp_strict_total_order nameA nameB nameC).2.1 h1 h2⟩

end pfs
